import Mathlib

/-!
Shallow embedding of the qEEG analysis core of the EEG-Viewer repository
(`eeg_viewer/data/normative_db.py`, `eeg_viewer/data/signal_processor.py`,
`eeg_viewer/data/qeeg_analyzer.py`, `eeg_viewer/data/channel_map.py`,
`eeg_viewer/utils/constants.py`), together with proofs settling the frozen
claims about it.

Modelling conventions:
* Python floats are modelled as exact rationals (`ℚ`).  IEEE NaN, which the
  NumPy code can produce (`np.std` with `ddof=1` on a single sample,
  `np.mean` of an empty selection), is modelled explicitly by the
  `NpVal`/`ZVal` wrapper types; rational arithmetic is exact, so results are
  the infinite-precision values of the source expressions.
* `np.true_divide(a, b, out=zeros, where=(b != 0))` — division that yields 0
  when the divisor is 0 — coincides with Lean's convention `a / 0 = 0` on
  `ℚ`, so guarded NumPy divisions are plain `ℚ` division here.
* Arrays are `List ℚ`; a channels × samples (or channels × frequencies)
  matrix is a `List (List ℚ)` of its rows.
-/

namespace EEGViewer

/-- A NumPy scalar: either a finite value (modelled exactly as a rational)
or IEEE NaN. -/
inductive NpVal where
  | nan : NpVal
  | val (q : ℚ) : NpVal
deriving DecidableEq, Repr

/-- `np.mean` of a 1-D selection: NaN on an empty selection, otherwise the
exact arithmetic mean. -/
def npMean (xs : List ℚ) : NpVal :=
  if xs = [] then .nan else .val (xs.sum / (xs.length : ℚ))

/-- A Z-score entry.  `divSqrt num varr` denotes the real number
`num / Real.sqrt varr`: the within-subject Z-score divides by
`np.std(..., ddof=1)`, the square root of the sample variance `varr`, which
is irrational in general, so the entry is kept in this exact symbolic form.
`nan` models an IEEE NaN entry. -/
inductive ZVal where
  | nan : ZVal
  | divSqrt (num varr : ℚ) : ZVal
deriving DecidableEq, Repr

/-- An exact rational Z-score entry (`q / Real.sqrt 1 = q`); used for the
all-zero fallback (`np.zeros_like`) and for the normative method, whose
divisions are by rational table constants. -/
def ZVal.ofRat (q : ℚ) : ZVal := .divSqrt q 1

/-- A `ZVal` denotes a finite real number (neither NaN nor ±Inf): it is a
`divSqrt` form whose variance argument is positive, so the denominator
`Real.sqrt varr` is a positive real. -/
def ZVal.finite : ZVal → Prop
  | .nan => False
  | .divSqrt _ v => 0 < v

/-- Sample variance `np.var(xs, ddof=1)`, i.e. the square of
`np.std(xs, ddof=1)`:  `Σ (x - mean)² / (n - 1)`.  For `n ≤ 1` NumPy
produces NaN (`0/0` for `n = 1`, degenerate slice for `n = 0`). -/
def sampleVar (xs : List ℚ) : NpVal :=
  if xs.length ≤ 1 then .nan
  else
    let m : ℚ := xs.sum / (xs.length : ℚ)
    .val ((xs.map (fun x => (x - m) ^ 2)).sum / ((xs.length : ℚ) - 1))

/-- `normative_db.py`, `NORMATIVE_RELATIVE_POWER`: the fixed lookup table of
published per-band (mean, std) for relative power. -/
def NORMATIVE_RELATIVE_POWER : List (String × ℚ × ℚ) :=
  [("Delta", (28/100, 9/100)), ("Theta", (18/100, 7/100)),
   ("Alpha", (32/100, 11/100)), ("Beta", (14/100, 6/100))]

/-- `NormativeDB.compute_zscore_within_subject`.
`std = np.std(vals, ddof=1)`; the source guard `std < 1e-10` is decided
here on the variance: for `v ≥ 0`, `Real.sqrt v < 1e-10 ↔ v < 1e-20`
(`Real.sqrt` is strictly monotone on nonnegatives), and NumPy's
`NaN < 1e-10` is `False`, matching the `.nan` branch, where every entry of
`(vals - mean) / NaN` is NaN. -/
def compute_zscore_within_subject (channel_values : List ℚ) : List ZVal :=
  match sampleVar channel_values with
  | .nan => channel_values.map (fun _ => ZVal.nan)
  | .val v =>
    if v < 1/10^20 then channel_values.map (fun _ => ZVal.ofRat 0)
    else
      let m : ℚ := channel_values.sum / (channel_values.length : ℚ)
      channel_values.map (fun x => ZVal.divSqrt (x - m) v)

/-- `NormativeDB.compute_zscore_normative`: for an unknown band the source
returns `np.zeros_like(channel_values)`; otherwise
`(vals - norm_mean) / norm_std` entrywise. -/
def compute_zscore_normative (channel_values : List ℚ) (band_name : String) :
    List ZVal :=
  match NORMATIVE_RELATIVE_POWER.lookup band_name with
  | none => channel_values.map (fun _ => ZVal.ofRat 0)
  | some ms => channel_values.map (fun x => ZVal.ofRat ((x - ms.1) / ms.2))

/-- `NormativeDB.compute_zscores`: dispatch on the method string; the
normative method with no band name raises `ValueError`, modelled as
`Except.error`. -/
def compute_zscores (method : String) (channel_values : List ℚ)
    (band_name : Option String) : Except String (List ZVal) :=
  if method = "within" then .ok (compute_zscore_within_subject channel_values)
  else
    match band_name with
    | none => .error "band_name required for normative Z-score method"
    | some b => .ok (compute_zscore_normative channel_values b)

/-! ## Artifact rejection (`signal_processor.py`, `SignalProcessor.reject_artifacts`) -/

/-- `EPOCH_DURATION_SEC` (module constant, `signal_processor.py`). -/
def EPOCH_DURATION_SEC : ℚ := 2

/-- `ARTIFACT_THRESHOLD_UV` (module constant, `signal_processor.py`). -/
def ARTIFACT_THRESHOLD_UV : ℚ := 100

/-- `MIN_CLEAN_EPOCHS` (module constant, `signal_processor.py`). -/
def MIN_CLEAN_EPOCHS : ℕ := 30

/-- The rejection threshold recorded on the processor: a finite value in µV,
or `float('inf')` (the "analyze everything" fallback marker). -/
inductive Thr where
  | uv (q : ℚ) : Thr
  | infin : Thr
deriving DecidableEq, Repr

/-- The mutable fields of `SignalProcessor` that `reject_artifacts` reads or
writes: `n_clean_epochs`, `n_total_epochs`, `rejection_threshold`. -/
structure ProcState where
  n_clean_epochs : ℕ
  n_total_epochs : ℕ
  rejection_threshold : Thr
deriving DecidableEq, Repr

/-- A channels × samples signal matrix (volts), one inner list per channel. -/
abbrev Mat := List (List ℚ)

/-- `np.max` of a 1-D array (the source only applies it to nonempty rows;
the `[]` case is arbitrary). -/
def listMax : List ℚ → ℚ
  | [] => 0
  | x :: xs => xs.foldl max x

/-- `np.min` of a 1-D array (nonempty in all uses). -/
def listMin : List ℚ → ℚ
  | [] => 0
  | x :: xs => xs.foldl min x

/-- `data[:, e*epoch_samples : (e+1)*epoch_samples]`: epoch `e` of the
matrix. -/
def epochSlice (data : Mat) (epochSamples e : ℕ) : Mat :=
  data.map (fun row => (row.drop (e * epochSamples)).take epochSamples)

/-- One channel row's peak-to-peak amplitude converted to microvolts:
`(np.max(epoch, axis=1) - np.min(epoch, axis=1)) * 1e6`. -/
def ptpUv (row : List ℚ) : ℚ := (listMax row - listMin row) * 1000000

/-- `np.all(ptp_uv <= threshold)`: epoch `e` is kept iff every channel's
peak-to-peak stays within `thr` µV. -/
def epochClean (data : Mat) (epochSamples : ℕ) (thr : ℚ) (e : ℕ) : Bool :=
  (epochSlice data epochSamples e).all (fun row => decide (ptpUv row ≤ thr))

/-- Indices (in order) of the epochs kept at threshold `thr`; the source
accumulates the epoch slices themselves, which are recovered from the
indices by `concatEpochs`. -/
def cleanEpochIdx (data : Mat) (epochSamples nEpochs : ℕ) (thr : ℚ) : List ℕ :=
  (List.range nEpochs).filter (fun e => epochClean data epochSamples thr e)

/-- `np.concatenate(clean_epochs, axis=1)`: per channel, the retained epoch
slices concatenated in index order. -/
def concatEpochs (data : Mat) (epochSamples : ℕ) (idx : List ℕ) : Mat :=
  data.map (fun row => (idx.map (fun e => (row.drop (e * epochSamples)).take epochSamples)).flatten)

/-- `RELAX_LADDER`: the fixed relaxed-threshold escalation sequence
`[150, 200, 300, 500]` (µV) hard-coded in the source's `for` loop. -/
def RELAX_LADDER : List ℚ := [150, 200, 300, 500]

/-- The source's relaxation loop.  Each iteration recomputes the clean-epoch
set at the next ladder threshold and records that threshold; it breaks at
the first level reaching `MIN_CLEAN_EPOCHS`, and when the ladder is
exhausted the state from the last level tried remains. -/
def relaxLoop (cleanOf : ℚ → List ℕ) : List ℚ → ℚ × List ℕ → ℚ × List ℕ
  | [], acc => acc
  | t :: ts, _ =>
    let c := cleanOf t
    if MIN_CLEAN_EPOCHS ≤ c.length then (t, c) else relaxLoop cleanOf ts (t, c)

/-- `SignalProcessor.reject_artifacts(data, threshold_uv, epoch_sec)`.
Returns the post-call processor state together with the returned matrix.
`threshold = threshold_uv or ARTIFACT_THRESHOLD_UV` is Python truthiness:
`None` and `0` both fall back to the default (likewise `epoch_sec`).
`epoch_samples = int(epoch_dur * sfreq)` truncates; for the nonnegative
values arising here this is the floor.  (With `epoch_samples = 0` the
Python `//` would raise `ZeroDivisionError`; the theorems below assume a
positive epoch length, as every caller provides.)  When `n_epochs = 0` the
source returns early, updating only the epoch counters. -/
def reject_artifacts (st : ProcState) (data : Mat) (sfreq : ℚ)
    (threshold_uv : Option ℚ) (epoch_sec : Option ℚ) : ProcState × Mat :=
  let threshold : ℚ :=
    match threshold_uv with
    | none => ARTIFACT_THRESHOLD_UV
    | some t => if t = 0 then ARTIFACT_THRESHOLD_UV else t
  let epoch_dur : ℚ :=
    match epoch_sec with
    | none => EPOCH_DURATION_SEC
    | some s => if s = 0 then EPOCH_DURATION_SEC else s
  let epoch_samples : ℕ := (⌊epoch_dur * sfreq⌋).toNat
  let n_epochs : ℕ := (data.headD []).length / epoch_samples
  if n_epochs = 0 then
    ({ st with n_clean_epochs := 0, n_total_epochs := 0 }, data)
  else
    let clean0 := cleanEpochIdx data epoch_samples n_epochs threshold
    let relaxed :=
      if clean0.length < MIN_CLEAN_EPOCHS then
        relaxLoop (cleanEpochIdx data epoch_samples n_epochs) RELAX_LADDER
          (threshold, clean0)
      else (threshold, clean0)
    if relaxed.2.length < MIN_CLEAN_EPOCHS then
      ({ n_clean_epochs := n_epochs, n_total_epochs := n_epochs,
         rejection_threshold := .infin }, data)
    else
      ({ n_clean_epochs := relaxed.2.length, n_total_epochs := n_epochs,
         rejection_threshold := .uv relaxed.1 },
       concatEpochs data epoch_samples relaxed.2)

/-- The `artifact_stats` dictionary assembled by
`QEEGAnalyzer._reject_artifacts` from the processor's post-call fields. -/
structure RejectionStats where
  total_epochs : ℕ
  clean_epochs : ℕ
  rejected_epochs : ℕ
  threshold_uv : Thr
  pct_rejected : ℚ
deriving DecidableEq, Repr

/-- `QEEGAnalyzer._reject_artifacts`, stats assembly:
`rejected = total - clean`, `pct = rejected / max(total, 1) * 100`. -/
def mkRejectionStats (st : ProcState) : RejectionStats :=
  { total_epochs := st.n_total_epochs
    clean_epochs := st.n_clean_epochs
    rejected_epochs := st.n_total_epochs - st.n_clean_epochs
    threshold_uv := st.rejection_threshold
    pct_rejected := ((st.n_total_epochs - st.n_clean_epochs : ℕ) : ℚ) /
      (max st.n_total_epochs 1 : ℕ) * 100 }

/-! ## Spectral estimation (`signal_processor.py`) -/

/-- `FREQ_BANDS` (`utils/constants.py`): the configured band name → inclusive
frequency range map. -/
def FREQ_BANDS : List (String × ℚ × ℚ) :=
  [("Delta", (1, 4)), ("Theta", (4, 8)), ("Alpha", (8, 13)), ("Beta", (13, 25))]

/-- `TOTAL_POWER_RANGE` (`utils/constants.py`): the fixed 1–25 Hz range used
as the relative-power denominator. -/
def TOTAL_POWER_RANGE : ℚ × ℚ := (1, 25)

/-- One parabolic segment of composite Simpson integration on an irregular
grid: the contribution of points `i, i+1, i+2`.  Modelled from the external
`scipy.integrate._basic_simpson` (the repository calls
`scipy.integrate.simpson`): with `h0 = x[i+1]-x[i]`, `h1 = x[i+2]-x[i+1]`,
the term is `(h0+h1)/6 * (y[i]*(2 - 1/(h0/h1)) + y[i+1]*(h0+h1)²/(h0·h1)
+ y[i+2]*(2 - h0/h1))`; SciPy's divisions are guarded to yield 0 on a zero
divisor, which is exactly `ℚ`'s division convention. -/
def basicSimpsonTerm (y x : List ℚ) (i : ℕ) : ℚ :=
  let h0 := x.getD (i + 1) 0 - x.getD i 0
  let h1 := x.getD (i + 2) 0 - x.getD (i + 1) 0
  let hsum := h0 + h1
  hsum / 6 * (y.getD i 0 * (2 - 1 / (h0 / h1)) +
    y.getD (i + 1) 0 * (hsum * (hsum / (h0 * h1))) +
    y.getD (i + 2) 0 * (2 - h0 / h1))

/-- `_basic_simpson(y, start, stop, x, ...)`: sum of the parabolic-segment
terms for `i = start, start+2, …` with `i < stop`. -/
def basicSimpson (y x : List ℚ) (start stop : ℕ) : ℚ :=
  ((List.range' start ((stop - start + 1) / 2) 2).map (basicSimpsonTerm y x)).sum

/-- `scipy.integrate.simpson(y, x=x)` for 1-D data (modelled from the
external SciPy source, current default behaviour): an odd number of samples
uses plain composite Simpson; `N = 2` falls back to the trapezoid rule; even
`N ≥ 4` integrates points `0 … N-3` by composite Simpson and adds
Cartwright's asymmetric correction `α·y[N-1] + β·y[N-2] - η·y[N-3]` for the
last interval.  `N = 0` cannot arise in the repository (the mask-nonempty
guard in `compute_band_power` precedes every call). -/
def simpsonQ (y x : List ℚ) : ℚ :=
  let N := y.length
  if N % 2 = 0 then
    if N = 0 then 0
    else if N = 2 then
      let lastdx := x.getD 1 0 - x.getD 0 0
      1 / 2 * lastdx * (y.getD 1 0 + y.getD 0 0)
    else
      let h0 := x.getD (N - 2) 0 - x.getD (N - 3) 0
      let h1 := x.getD (N - 1) 0 - x.getD (N - 2) 0
      let alpha := (2 * h1 ^ 2 + 3 * h0 * h1) / (6 * (h1 + h0))
      let beta := (h1 ^ 2 + 3 * h0 * h1) / (6 * h0)
      let eta := h1 ^ 3 / (6 * h0 * (h0 + h1))
      basicSimpson y x 0 (N - 3) +
        alpha * y.getD (N - 1) 0 + beta * y.getD (N - 2) 0 - eta * y.getD (N - 3) 0
  else
    basicSimpson y x 0 (N - 2)

/-- `freqs[mask]` for `mask = (freqs >= f_low) & (freqs <= f_high)`: both
band edges are inclusive. -/
def maskedFreqs (freqs : List ℚ) (fLow fHigh : ℚ) : List ℚ :=
  freqs.filter (fun f => decide (fLow ≤ f) && decide (f ≤ fHigh))

/-- `psd[k][mask]`: the entries of one PSD row at the in-band frequency
bins (the row is index-aligned with `freqs`). -/
def maskedVals (freqs row : List ℚ) (fLow fHigh : ℚ) : List ℚ :=
  ((freqs.zip row).filter (fun p => decide (fLow ≤ p.1) && decide (p.1 ≤ fHigh))).map
    Prod.snd

/-- `SignalProcessor.compute_band_power(psd, freqs, band)`: all-zero result
when no bin falls in the band, otherwise per-channel Simpson integration of
the masked PSD against the masked frequency axis. -/
def compute_band_power (psd : Mat) (freqs : List ℚ) (fLow fHigh : ℚ) : List ℚ :=
  if maskedFreqs freqs fLow fHigh = [] then List.replicate psd.length 0
  else psd.map (fun row =>
    simpsonQ (maskedVals freqs row fLow fHigh) (maskedFreqs freqs fLow fHigh))

/-- `SignalProcessor.compute_relative_power(psd, freqs, band)` with the
default total range: `band_power / np.where(total_power > 0, total_power,
1e-10)` entrywise. -/
def compute_relative_power (psd : Mat) (freqs : List ℚ) (fLow fHigh : ℚ) :
    List ℚ :=
  let band_power := compute_band_power psd freqs fLow fHigh
  let total_power := compute_band_power psd freqs TOTAL_POWER_RANGE.1 TOTAL_POWER_RANGE.2
  (band_power.zip total_power).map
    (fun p => p.1 / (if 0 < p.2 then p.2 else 1/10^10))

/-! ## Coherence matrix assembly (`qeeg_analyzer.py`, `_compute_coherence`) -/

/-- Band-averaged coherence for the unordered pair `{i, j}` (`i ≠ j`):
`np.mean(Cxy[band_mask])` where `Cxy` is the pair's coherence spectrum
(computed by the external `scipy.signal.coherence`, taken here as an input
`cohSpec`, index-aligned with `freqs`) and the band mask is inclusive on
both edges; the mean of an empty selection is NaN.  Diagonal entries are
fixed at 1 by `np.eye(n)`. -/
def coherenceEntry (freqs : List ℚ) (cohSpec : ℕ → ℕ → List ℚ)
    (fLow fHigh : ℚ) (i j : ℕ) : NpVal :=
  if i = j then .val 1
  else npMean (maskedVals freqs (cohSpec (min i j) (max i j)) fLow fHigh)

/-- `QEEGAnalyzer._compute_coherence`, one band's matrix: `np.eye(n)` with
each pair `(i, j)`, `i < j`, stored symmetrically at `[i][j]` and `[j][i]`.
With fewer than two channels the pair loop never executes, the loop
variable `f` is never bound, and the band-mask line raises
`UnboundLocalError` — modelled as `none`. -/
def coherenceMatrix (n : ℕ) (freqs : List ℚ) (cohSpec : ℕ → ℕ → List ℚ)
    (fLow fHigh : ℚ) : Option (List (List NpVal)) :=
  if n < 2 then none
  else some ((List.range n).map (fun i =>
    (List.range n).map (fun j => coherenceEntry freqs cohSpec fLow fHigh i j)))

/-! ## Hemispheric asymmetry (`qeeg_analyzer.py`, `_compute_asymmetry`) -/

/-- `ASYMMETRY_PAIRS` (`channel_map.py`): configured homologous
(left, right) channel pairs. -/
def ASYMMETRY_PAIRS : List (String × String) :=
  [("Fp1", "Fp2"), ("F7", "F8"), ("F3", "F4"), ("T7", "T8"),
   ("C3", "C4"), ("P7", "P8"), ("P3", "P4"), ("O1", "O2")]

/-- Python's binary `max` on floats, written with an explicit comparison so
that it evaluates by kernel reduction; it agrees with `Max.max`
(`pyMax_eq_max` below). -/
def pyMax (a b : ℚ) : ℚ := if a ≤ b then b else a

/-- `QEEGAnalyzer._compute_asymmetry`, one band: for each configured pair
with both channels present (pairs with a missing channel are skipped), the
epsilon-floored `(left_power, right_power)` pair
`(max(l, 1e-20), max(r, 1e-20))`, in configured order.  The recorded
asymmetry value is `np.log(right) - np.log(left)` of these floored powers,
i.e. `Real.log` of the second component minus `Real.log` of the first; the
floored rationals are kept so the entries stay exact.  `band_power` maps a
channel name to its band power (the source reads the per-channel array at
the channel's index; the array is index-aligned with the channel list). -/
def compute_asymmetry_pairs (eeg_channels : List String)
    (band_power : String → ℚ) : List ((String × String) × ℚ × ℚ) :=
  (ASYMMETRY_PAIRS.filter
      (fun p => decide (p.1 ∈ eeg_channels) && decide (p.2 ∈ eeg_channels))).map
    (fun p => (p, (pyMax (band_power p.1) (1/10^20), pyMax (band_power p.2) (1/10^20))))

/-! ## Analyzer result state and Z-score recomputation (`qeeg_analyzer.py`) -/

/-- The result fields of `QEEGAnalyzer` (plus the `NormativeDB` method
string held by its `normative` collaborator).  The coherence, asymmetry,
peak-frequency and artifact-stats fields carry the computed structures;
for the frame property only their identity matters. -/
structure AnalyzerState where
  method : String
  freqs : List ℚ
  psd : Mat
  band_powers : List (String × List ℚ)
  relative_powers : List (String × List ℚ)
  zscores : List (String × List ZVal)
  coherence : List (String × Option (List (List NpVal)))
  asymmetry : List (String × List ((String × String) × ℚ × ℚ))
  peak_freqs : List (String × ℚ × ℚ)
  artifact_stats : Option RejectionStats

/-- `NormativeDB.set_method` reached through the analyzer's `normative`
collaborator: replaces the method string and nothing else. -/
def set_method (s : AnalyzerState) (m : String) : AnalyzerState :=
  { s with method := m }

/-- `QEEGAnalyzer._compute_zscores`: for each configured band, the Z-scores
of that band's relative-power slice under the current method.  The band
name is always supplied, so the `ValueError` branch of `compute_zscores` is
unreachable (`.toOption.getD []` is the unreachable-error placeholder). -/
def computeZscoresMap (method : String)
    (relative_powers : List (String × List ℚ)) : List (String × List ZVal) :=
  FREQ_BANDS.map (fun b =>
    (b.1, (compute_zscores method ((relative_powers.lookup b.1).getD []) (some b.1)).toOption.getD []))

/-- `QEEGAnalyzer.recompute_zscores`: re-runs `_compute_zscores`, which
assigns only the `zscores` field. -/
def recompute_zscores (s : AnalyzerState) : AnalyzerState :=
  { s with zscores := computeZscoresMap s.method s.relative_powers }

/-! ## Progress reporting (`qeeg_analyzer.py`, `run_full_analysis`) -/

/-- The incremental notifications of `_compute_coherence`: the pair loop
counts `done` from 1 to `total_pairs` and, every 20 pairs, emits
`45 + int(40 * done / total_pairs)`; `int` truncation of the nonnegative
quotient is the floor, i.e. natural division of the exact values. -/
def coherenceProgress (total_pairs : ℕ) : List (ℕ × String) :=
  (((List.range total_pairs).map (· + 1)).filter (fun d => d % 20 = 0)).map
    (fun d => (45 + 40 * d / total_pairs, s!"Computing coherence ({d}/{total_pairs})..."))

/-- The full ordered sequence of `(percentage, label)` notifications emitted
by one `run_full_analysis` call (each stage notification precedes its
stage; the coherence stage additionally emits its incremental
notifications). -/
def run_full_analysis_trace (total_pairs : ℕ) : List (ℕ × String) :=
  [(2, "Detecting high-impedance channels..."),
   (4, "Applying adaptive filtering..."),
   (6, "Rejecting artifacts..."),
   (10, "Computing power spectral density..."),
   (20, "Computing band powers..."),
   (35, "Computing Z-scores..."),
   (45, "Computing coherence...")]
  ++ coherenceProgress total_pairs
  ++ [(85, "Computing asymmetry..."),
      (92, "Finding peak frequencies...")]
  ++ [(100, "Analysis complete")]

/-- A uniformly spaced grid `a, a+d, …, a+(N-1)·d`.  The Welch frequency
axis produced upstream (`scipy.signal.welch`, `freqs[k] = k·fs/nperseg`)
has this form; it parametrises the hypotheses of the spectral theorems. -/
def uniformList (a d : ℚ) (N : ℕ) : List ℚ :=
  (List.range N).map (fun (k : ℕ) => a + d * (k : ℚ))

/-!
# Theorems

Claims C1–C10, with their supporting lemmas.
-/

/-- C1 counterexample: `"Gamma"` is absent from the normative lookup table,
yet requesting approximate-normative Z-scoring for it does not fail: it
returns the numeric all-zero vector. -/
theorem normative_unknown_band_counterexample :
    NORMATIVE_RELATIVE_POWER.lookup "Gamma" = none ∧
    compute_zscores "normative" [1/2] (some "Gamma") = .ok [ZVal.ofRat 0] := by
  constructor <;> rfl

/-- C1 (amended): for every channel-values vector and every band name absent
from the normative lookup table, approximate-normative Z-scoring does not
signal an error: it silently returns the all-zero vector of the same
length.  (The dispatching `compute_zscores` raises a `ValueError` only when
no band name at all is supplied with the normative method.) -/
theorem normative_unknown_band_returns_zeros (vals : List ℚ) (band : String)
    (h : NORMATIVE_RELATIVE_POWER.lookup band = none) :
    compute_zscore_normative vals band = vals.map (fun _ => ZVal.ofRat 0) ∧
    compute_zscores "normative" vals (some band) =
      .ok (vals.map (fun _ => ZVal.ofRat 0)) := by
  have hz : compute_zscore_normative vals band = vals.map (fun _ => ZVal.ofRat 0) := by
    unfold compute_zscore_normative
    rw [h]
  refine ⟨hz, ?_⟩
  unfold compute_zscores
  rw [if_neg (by decide)]
  dsimp only
  rw [hz]

/-- C1 witness: the amended statement at a concrete input. -/
theorem normative_unknown_band_returns_zeros_witness :
    NORMATIVE_RELATIVE_POWER.lookup "Gamma" = none ∧
    compute_zscore_normative [3] "Gamma" = ([3] : List ℚ).map (fun _ => ZVal.ofRat 0) :=
  ⟨by decide, (normative_unknown_band_returns_zeros [3] "Gamma" (by decide)).1⟩

/-- C2 counterexample: on the single-element vector `[1]` the sample
standard deviation with `ddof = 1` is NaN (`0/0`), the `std < 1e-10` guard
is `False` for NaN, and within-subject Z-scoring returns a NaN entry — not
a NaN-free vector as claimed. -/
theorem within_subject_singleton_nan_counterexample :
    compute_zscore_within_subject [1] = [ZVal.nan] := by rfl

/-- C2 (amended): for every input vector of at least two channel values,
within-subject Z-scoring returns only finite entries (no NaN or Inf), and
whenever all entries are equal — so the sample standard deviation is
numerically zero — it returns the all-zero vector.  (A single-element
vector instead yields NaN, since `np.std(·, ddof=1)` is NaN there.) -/
theorem within_subject_no_nan_of_two_le (xs : List ℚ) (h2 : 2 ≤ xs.length) :
    (∀ z ∈ compute_zscore_within_subject xs, z.finite) ∧
    ((∀ x ∈ xs, ∀ y ∈ xs, x = y) →
      compute_zscore_within_subject xs = xs.map fun _ => ZVal.ofRat 0) := by
  have hlen : ¬ xs.length ≤ 1 := by omega
  have hvar : sampleVar xs =
      .val ((xs.map (fun x => (x - xs.sum / (xs.length : ℚ)) ^ 2)).sum /
        ((xs.length : ℚ) - 1)) := by
    unfold sampleVar
    rw [if_neg hlen]
  by_cases hsmall :
      (xs.map (fun x => (x - xs.sum / (xs.length : ℚ)) ^ 2)).sum /
        ((xs.length : ℚ) - 1) < 1/10^20
  · have hres : compute_zscore_within_subject xs = xs.map fun _ => ZVal.ofRat 0 := by
      unfold compute_zscore_within_subject
      rw [hvar]
      dsimp only
      rw [if_pos hsmall]
    refine ⟨?_, fun _ => hres⟩
    intro z hz
    rw [hres] at hz
    obtain ⟨x, -, rfl⟩ := List.mem_map.1 hz
    exact one_pos
  · have hres : compute_zscore_within_subject xs =
        xs.map fun x => ZVal.divSqrt (x - xs.sum / (xs.length : ℚ))
          ((xs.map (fun x => (x - xs.sum / (xs.length : ℚ)) ^ 2)).sum /
            ((xs.length : ℚ) - 1)) := by
      unfold compute_zscore_within_subject
      rw [hvar]
      dsimp only
      rw [if_neg hsmall]
    constructor
    · intro z hz
      rw [hres] at hz
      obtain ⟨x, -, rfl⟩ := List.mem_map.1 hz
      have : (0:ℚ) < 1/10^20 := by norm_num
      have := not_lt.1 hsmall
      show (0:ℚ) < _
      linarith
    · -- all entries equal forces sample variance 0, contradicting ¬(< 1e-20)
      intro hall
      exfalso
      apply hsmall
      have hx0 : xs ≠ [] := by
        intro h
        rw [h] at h2
        simp at h2
      obtain ⟨c, hc⟩ : ∃ c, ∀ x ∈ xs, x = c := by
        obtain ⟨x, hx⟩ := List.exists_mem_of_ne_nil xs hx0
        exact ⟨x, fun y hy => hall y hy x hx⟩
      have hsum : xs.sum = (xs.length : ℚ) * c := by
        rw [List.sum_eq_card_nsmul xs c hc]
        simp [nsmul_eq_mul]
      have hmean : xs.sum / (xs.length : ℚ) = c := by
        rw [hsum, mul_div_assoc]
        have : (xs.length : ℚ) ≠ 0 := by
          have : 0 < xs.length := by omega
          positivity
        field_simp
      have hzero : (xs.map (fun x => (x - xs.sum / (xs.length : ℚ)) ^ 2)).sum = 0 := by
        have : xs.map (fun x => (x - xs.sum / (xs.length : ℚ)) ^ 2) =
            xs.map (fun _ => (0:ℚ)) := by
          apply List.map_congr_left
          intro x hx
          rw [hmean, hc x hx]
          ring
        rw [this]
        simp
      rw [hzero]
      norm_num

/-- C2 witness: the amended statement at the concrete vector `[1, 2]`. -/
theorem within_subject_no_nan_witness :
    2 ≤ ([1, 2] : List ℚ).length ∧
    ∀ z ∈ compute_zscore_within_subject [1, 2], z.finite :=
  ⟨by decide, (within_subject_no_nan_of_two_le [1, 2] (by decide)).1⟩

/-- An epoch index is in the kept set iff it indexes a whole epoch and no
channel's peak-to-peak amplitude in that epoch exceeds the threshold. -/
theorem mem_cleanEpochIdx (data : Mat) (es ne : ℕ) (thr : ℚ) (e : ℕ) :
    e ∈ cleanEpochIdx data es ne thr ↔
      e < ne ∧ ¬ ∃ row ∈ epochSlice data es e, thr < ptpUv row := by
  unfold cleanEpochIdx epochClean
  rw [List.mem_filter, List.mem_range]
  constructor
  · rintro ⟨h1, h2⟩
    rw [List.all_eq_true] at h2
    refine ⟨h1, ?_⟩
    rintro ⟨row, hrow, hgt⟩
    exact absurd (of_decide_eq_true (h2 row hrow)) (not_le.2 hgt)
  · rintro ⟨h1, h2⟩
    refine ⟨h1, ?_⟩
    rw [List.all_eq_true]
    intro row hrow
    by_contra hne
    exact h2 ⟨row, hrow, not_le.1 fun hle => hne (decide_eq_true hle)⟩

/-- Kept-epoch index lists never exceed the epoch count. -/
theorem cleanEpochIdx_length_le (data : Mat) (es ne : ℕ) (thr : ℚ) :
    (cleanEpochIdx data es ne thr).length ≤ ne := by
  calc (cleanEpochIdx data es ne thr).length
      ≤ (List.range ne).length := List.length_filter_le _ _
    _ = ne := List.length_range ne

/-- When a ladder level satisfies the minimum first, the relaxation loop
stops there with that level's clean set. -/
theorem relaxLoop_eq_of_find_some (cleanOf : ℚ → List ℕ) (ts : List ℚ)
    (acc : ℚ × List ℕ) (t : ℚ)
    (h : ts.find? (fun u => decide (MIN_CLEAN_EPOCHS ≤ (cleanOf u).length)) = some t) :
    relaxLoop cleanOf ts acc = (t, cleanOf t) := by
  induction ts generalizing acc with
  | nil => simp at h
  | cons a as ih =>
    by_cases hp : MIN_CLEAN_EPOCHS ≤ (cleanOf a).length
    · rw [@List.find?_cons_of_pos _ (fun u => decide (MIN_CLEAN_EPOCHS ≤ (cleanOf u).length))
        a as (decide_eq_true hp)] at h
      injection h with h
      subst h
      unfold relaxLoop
      rw [if_pos hp]
    · rw [@List.find?_cons_of_neg _ (fun u => decide (MIN_CLEAN_EPOCHS ≤ (cleanOf u).length))
        a as (by simpa using hp)] at h
      unfold relaxLoop
      rw [if_neg hp]
      exact ih _ h

/-- The default-argument call of `reject_artifacts`, in the regime where the
default threshold already keeps at least the minimum number of epochs. -/
theorem reject_artifacts_default_eq_of_enough
    (st : ProcState) (data : Mat) (sfreq : ℚ) (es ne : ℕ)
    (hes : es = (⌊EPOCH_DURATION_SEC * sfreq⌋).toNat)
    (hne : ne = (data.headD []).length / es)
    (hne0 : ne ≠ 0)
    (hmin : ¬ (cleanEpochIdx data es ne 100).length < MIN_CLEAN_EPOCHS) :
    reject_artifacts st data sfreq none none =
      ({ n_clean_epochs := (cleanEpochIdx data es ne 100).length,
         n_total_epochs := ne,
         rejection_threshold := .uv 100 },
       concatEpochs data es (cleanEpochIdx data es ne 100)) := by
  subst hes hne
  unfold reject_artifacts
  dsimp only
  rw [show ARTIFACT_THRESHOLD_UV = (100 : ℚ) from rfl] at *
  rw [if_neg hne0, if_neg hmin, if_neg hmin]

/-- C3: at the default 100 µV threshold with at least the minimum clean
count surviving, `reject_artifacts` keeps exactly the epochs in which no
channel's peak-to-peak exceeds 100 µV (characterised by
`mem_cleanEpochIdx`), returns their concatenation in order, and the
resulting `RejectionStats` report `clean_epochs` = kept count,
`rejected_epochs = total − clean`, `threshold_uv = 100`. -/
theorem reject_artifacts_default_threshold_spec
    (st : ProcState) (data : Mat) (sfreq : ℚ) (es ne : ℕ)
    (hes : es = (⌊EPOCH_DURATION_SEC * sfreq⌋).toNat)
    (hne : ne = (data.headD []).length / es)
    (hmin : MIN_CLEAN_EPOCHS ≤ (cleanEpochIdx data es ne 100).length) :
    reject_artifacts st data sfreq none none =
      ({ n_clean_epochs := (cleanEpochIdx data es ne 100).length,
         n_total_epochs := ne,
         rejection_threshold := .uv 100 },
       concatEpochs data es (cleanEpochIdx data es ne 100)) ∧
    (∀ e, e ∈ cleanEpochIdx data es ne 100 ↔
       e < ne ∧ ¬ ∃ row ∈ epochSlice data es e, 100 < ptpUv row) ∧
    mkRejectionStats (reject_artifacts st data sfreq none none).1 =
      { total_epochs := ne,
        clean_epochs := (cleanEpochIdx data es ne 100).length,
        rejected_epochs := ne - (cleanEpochIdx data es ne 100).length,
        threshold_uv := .uv 100,
        pct_rejected := ((ne - (cleanEpochIdx data es ne 100).length : ℕ) : ℚ) /
          ((max ne 1 : ℕ) : ℚ) * 100 } := by
  have hne0 : ne ≠ 0 := by
    intro h0
    rw [h0] at hmin
    have := cleanEpochIdx_length_le data es 0 100
    rw [MIN_CLEAN_EPOCHS] at hmin
    omega
  have heq := reject_artifacts_default_eq_of_enough st data sfreq es ne hes hne hne0
    (not_lt.2 hmin)
  refine ⟨heq, fun e => mem_cleanEpochIdx data es ne 100 e, ?_⟩
  rw [heq]
  rfl

/-- C3 witness: one channel of 30 one-sample epochs, all flat (peak-to-peak
0 µV), at `sfreq = 1/2` (epoch length 1 sample): all 30 epochs survive. -/
theorem reject_artifacts_default_threshold_witness :
    reject_artifacts ⟨0, 0, .uv 100⟩ [List.replicate 30 0] (1/2) none none =
      ({ n_clean_epochs := (cleanEpochIdx [List.replicate 30 0] 1 30 100).length,
         n_total_epochs := 30,
         rejection_threshold := .uv 100 },
       concatEpochs [List.replicate 30 0] 1 (cleanEpochIdx [List.replicate 30 0] 1 30 100)) := by
  have hall : ∀ e ∈ List.range 30,
      epochClean [List.replicate 30 0] 1 100 e = true := by
    intro e he
    rw [List.mem_range] at he
    unfold epochClean epochSlice
    have hslice : ((List.replicate 30 (0:ℚ)).drop (e * 1)).take 1 = [0] := by
      rw [Nat.mul_one, List.drop_replicate, List.take_replicate]
      have : min 1 (30 - e) = 1 := by omega
      rw [this, List.replicate_one]
    simp only [List.map_cons, List.map_nil, List.all_cons, List.all_nil, hslice]
    have : ptpUv [0] ≤ 100 := by
      unfold ptpUv listMax listMin
      norm_num
    simp [this]
  have hfull : cleanEpochIdx [List.replicate 30 0] 1 30 100 = List.range 30 := by
    unfold cleanEpochIdx
    exact List.filter_eq_self.2 hall
  exact (reject_artifacts_default_threshold_spec ⟨0, 0, .uv 100⟩ [List.replicate 30 0]
    (1/2) 1 30
    (by norm_num [EPOCH_DURATION_SEC])
    (by simp)
    (by rw [hfull, List.length_range, MIN_CLEAN_EPOCHS])).1

/-- C4: when fewer than the minimum clean-epoch count survives the default
100 µV threshold, the thresholds 150, 200, 300, 500 µV are tried in that
order (the first-sufficient level is `List.find?` on the ladder): if some
level reaches the minimum, its threshold and clean set are adopted; if even
500 µV yields too few, the full input is returned, the threshold is marked
infinite, and `clean_epochs = total_epochs` — a total function, never a
fatal error. -/
theorem reject_artifacts_relaxation_ladder_spec
    (st : ProcState) (data : Mat) (sfreq : ℚ) (es ne : ℕ)
    (hes : es = (⌊EPOCH_DURATION_SEC * sfreq⌋).toNat)
    (hne : ne = (data.headD []).length / es)
    (hne0 : ne ≠ 0)
    (hlow : (cleanEpochIdx data es ne 100).length < MIN_CLEAN_EPOCHS) :
    (∀ t, RELAX_LADDER.find?
        (fun u => decide (MIN_CLEAN_EPOCHS ≤ (cleanEpochIdx data es ne u).length)) = some t →
      reject_artifacts st data sfreq none none =
        ({ n_clean_epochs := (cleanEpochIdx data es ne t).length,
           n_total_epochs := ne,
           rejection_threshold := .uv t },
         concatEpochs data es (cleanEpochIdx data es ne t))) ∧
    (RELAX_LADDER.find?
        (fun u => decide (MIN_CLEAN_EPOCHS ≤ (cleanEpochIdx data es ne u).length)) = none →
      reject_artifacts st data sfreq none none =
        ({ n_clean_epochs := ne, n_total_epochs := ne,
           rejection_threshold := .infin }, data)) := by
  subst hes hne
  constructor
  · intro t hfind
    have hkeep0 := List.find?_some hfind
    simp only [decide_eq_true_eq] at hkeep0
    have hkeep : MIN_CLEAN_EPOCHS ≤
        (cleanEpochIdx data (⌊EPOCH_DURATION_SEC * sfreq⌋).toNat
          ((data.headD []).length / (⌊EPOCH_DURATION_SEC * sfreq⌋).toNat) t).length := hkeep0
    unfold reject_artifacts
    dsimp only
    rw [show ARTIFACT_THRESHOLD_UV = (100 : ℚ) from rfl]
    rw [if_neg hne0, if_pos hlow,
      relaxLoop_eq_of_find_some _ _ _ t hfind, if_neg (not_lt.2 hkeep)]
  · intro hfind
    have hnone := List.find?_eq_none.1 hfind
    simp only [decide_eq_true_eq] at hnone
    have h150 := hnone 150 (by norm_num [RELAX_LADDER])
    have h200 := hnone 200 (by norm_num [RELAX_LADDER])
    have h300 := hnone 300 (by norm_num [RELAX_LADDER])
    have h500 := hnone 500 (by norm_num [RELAX_LADDER])
    unfold reject_artifacts
    dsimp only
    rw [show ARTIFACT_THRESHOLD_UV = (100 : ℚ) from rfl]
    rw [if_neg hne0, if_pos hlow]
    rw [show RELAX_LADDER = [(150:ℚ), 200, 300, 500] from rfl]
    unfold relaxLoop
    rw [if_neg h150]
    unfold relaxLoop
    rw [if_neg h200]
    unfold relaxLoop
    rw [if_neg h300]
    unfold relaxLoop
    rw [if_neg h500]
    unfold relaxLoop
    rw [if_pos (not_le.1 h500)]

/-- C4 witness: a single one-sample epoch (1 < 30 clean at every level), so
the ladder is exhausted and the infinite-threshold "analyze everything"
fallback fires with `clean_epochs = total_epochs = 1`. -/
theorem reject_artifacts_relaxation_ladder_witness :
    reject_artifacts ⟨0, 0, .uv 100⟩ [[0]] (1/2) none none =
      ({ n_clean_epochs := 1, n_total_epochs := 1,
         rejection_threshold := .infin }, [[0]]) := by
  have hle : ∀ t : ℚ, (cleanEpochIdx [[0]] 1 1 t).length ≤ 1 := by
    intro t
    exact cleanEpochIdx_length_le [[0]] 1 1 t
  exact (reject_artifacts_relaxation_ladder_spec ⟨0, 0, .uv 100⟩ [[0]] (1/2) 1 1
    (by norm_num [EPOCH_DURATION_SEC])
    (by simp)
    (by omega)
    (by have := hle 100; rw [MIN_CLEAN_EPOCHS]; omega)).2
    (List.find?_eq_none.2 (fun t _ => by
      have := hle t
      simp only [decide_eq_true_eq, MIN_CLEAN_EPOCHS]
      omega))

/-- C10: for every PSD matrix and band containing no frequency-axis value,
band power is the all-zero vector of length `n = psd.length` (no error, no
NaN). -/
theorem band_power_empty_mask_zeros (psd : Mat) (freqs : List ℚ) (fLow fHigh : ℚ)
    (h : ∀ f ∈ freqs, ¬(fLow ≤ f ∧ f ≤ fHigh)) :
    compute_band_power psd freqs fLow fHigh = List.replicate psd.length 0 := by
  unfold compute_band_power
  rw [if_pos]
  unfold maskedFreqs
  rw [List.filter_eq_nil_iff]
  intro f hf
  simp only [Bool.and_eq_true, decide_eq_true_eq]
  exact fun hb => h f hf ⟨hb.1, hb.2⟩

/-- C10 witness: a band (1–4 Hz) entirely below the frequency axis. -/
theorem band_power_empty_mask_zeros_witness :
    compute_band_power [[1, 2], [3, 4]] [30, 40] 1 4 = List.replicate 2 0 := by
  have := band_power_empty_mask_zeros [[1, 2], [3, 4]] [30, 40] 1 4 (by decide)
  simpa using this

/-- C8: switching the Z-score strategy (`set_method`) and recomputing
(`recompute_zscores`) replaces only the `zscores` map; the band-power map,
relative-power map, PSD, frequency axis, coherence map, asymmetry lists,
peak-frequency map and rejection statistics are all unchanged, and the new
`zscores` is exactly the Z-score map of the unchanged relative powers under
the new method. -/
theorem recompute_zscores_frame (s : AnalyzerState) (m : String) :
    (recompute_zscores (set_method s m)).band_powers = s.band_powers ∧
    (recompute_zscores (set_method s m)).relative_powers = s.relative_powers ∧
    (recompute_zscores (set_method s m)).psd = s.psd ∧
    (recompute_zscores (set_method s m)).freqs = s.freqs ∧
    (recompute_zscores (set_method s m)).coherence = s.coherence ∧
    (recompute_zscores (set_method s m)).asymmetry = s.asymmetry ∧
    (recompute_zscores (set_method s m)).peak_freqs = s.peak_freqs ∧
    (recompute_zscores (set_method s m)).artifact_stats = s.artifact_stats ∧
    (recompute_zscores (set_method s m)).zscores =
      computeZscoresMap m s.relative_powers := by
  refine ⟨rfl, rfl, rfl, rfl, rfl, rfl, rfl, rfl, rfl⟩

/-- The explicit-comparison `pyMax` is `Max.max` on `ℚ`. -/
theorem pyMax_eq_max (a b : ℚ) : pyMax a b = max a b := by
  unfold pyMax
  rcases le_or_lt a b with h | h
  · rw [if_pos h, max_eq_right h]
  · rw [if_neg (not_le.2 h), max_eq_left h.le]

/-- C7: for every channel set and band-power assignment, (i) the asymmetry
list contains exactly the configured homologous pairs whose two channels
are both present (pairs with a missing channel are omitted, not
zero-filled), in configured order; (ii) each entry carries the
epsilon-floored powers `(max(left, 1e-20), max(right, 1e-20))`, so its
recorded value is `ln(max(right, 1e-20)) − ln(max(left, 1e-20))`;
(iii) equal left and right powers give asymmetry 0; and (iv) powers 1.0 and
2.0 give asymmetry `ln 2`. -/
theorem asymmetry_spec (channels : List String) (band_power : String → ℚ) :
    (compute_asymmetry_pairs channels band_power).map Prod.fst =
      ASYMMETRY_PAIRS.filter
        (fun p => decide (p.1 ∈ channels) && decide (p.2 ∈ channels)) ∧
    (∀ e ∈ compute_asymmetry_pairs channels band_power,
      e.2.1 = max (band_power e.1.1) (1/10^20) ∧
      e.2.2 = max (band_power e.1.2) (1/10^20)) ∧
    (∀ e ∈ compute_asymmetry_pairs channels band_power,
      band_power e.1.1 = band_power e.1.2 →
        Real.log (e.2.2 : ℝ) - Real.log (e.2.1 : ℝ) = 0) ∧
    (∀ e ∈ compute_asymmetry_pairs channels band_power,
      band_power e.1.1 = 1 → band_power e.1.2 = 2 →
        Real.log (e.2.2 : ℝ) - Real.log (e.2.1 : ℝ) = Real.log 2) := by
  refine ⟨?_, ?_, ?_, ?_⟩
  · unfold compute_asymmetry_pairs
    rw [List.map_map]
    exact List.map_id _
  · intro e he
    obtain ⟨p, -, rfl⟩ := List.mem_map.1 he
    exact ⟨pyMax_eq_max _ _, pyMax_eq_max _ _⟩
  · intro e he heq
    obtain ⟨p, -, rfl⟩ := List.mem_map.1 he
    simp only at heq ⊢
    rw [heq]
    exact sub_self _
  · intro e he h1 h2
    obtain ⟨p, -, rfl⟩ := List.mem_map.1 he
    simp only at h1 h2 ⊢
    rw [h1, h2]
    have e1 : pyMax (1 : ℚ) (1/10^20) = 1 := by norm_num [pyMax]
    have e2 : pyMax (2 : ℚ) (1/10^20) = 2 := by norm_num [pyMax]
    rw [e1, e2]
    push_cast
    rw [Real.log_one]
    ring

/-- C7 witness: with channels `F3, F4` and band powers 1.0 (left) and 2.0
(right), the pair is present and its asymmetry value is `ln 2`. -/
theorem asymmetry_spec_witness :
    ∃ e ∈ compute_asymmetry_pairs ["F3", "F4"]
      (fun c => if c = "F4" then (2:ℚ) else 1),
      Real.log (e.2.2 : ℝ) - Real.log (e.2.1 : ℝ) = Real.log 2 := by
  have hlist : compute_asymmetry_pairs ["F3", "F4"]
      (fun c => if c = "F4" then (2:ℚ) else 1) = [(("F3", "F4"), (1, 2))] := by
    simp only [compute_asymmetry_pairs, ASYMMETRY_PAIRS]
    simp [List.filter_cons]
    norm_num [pyMax]
  have hmem : (("F3", "F4"), ((1:ℚ), (2:ℚ))) ∈ compute_asymmetry_pairs ["F3", "F4"]
      (fun c => if c = "F4" then (2:ℚ) else 1) := by
    rw [hlist]
    exact List.mem_singleton.2 rfl
  refine ⟨(("F3", "F4"), (1, 2)), hmem, ?_⟩
  refine (asymmetry_spec ["F3", "F4"] (fun c => if c = "F4" then (2:ℚ) else 1)).2.2.2
    (("F3", "F4"), (1, 2)) hmem ?_ ?_
  · show (if ("F3" : String) = "F4" then (2:ℚ) else 1) = 1
    simp
  · show (if ("F4" : String) = "F4" then (2:ℚ) else 1) = 2
    simp

/-- C5 counterexample: with one channel (`n = 1`) the pair loop of
`_compute_coherence` never executes, its loop variable `f` is never bound,
and the band-mask line raises `UnboundLocalError` — no 1×1 matrix is
produced, contradicting the claim at `n = 1`. -/
theorem coherence_single_channel_counterexample :
    coherenceMatrix 1 [0, 1, 2] (fun _ _ => [1, 1, 1]) 1 4 = none := rfl

/-- The NumPy mean of a nonempty selection of values in `[0, 1]` is a
finite value in `[0, 1]`. -/
theorem npMean_mem_unit (xs : List ℚ) (hne : xs ≠ [])
    (h : ∀ v ∈ xs, 0 ≤ v ∧ v ≤ 1) :
    ∃ q, npMean xs = .val q ∧ 0 ≤ q ∧ q ≤ 1 := by
  have hlenpos : (0:ℚ) < (xs.length : ℚ) := by
    have : 0 < xs.length := List.length_pos.2 hne
    exact_mod_cast this
  refine ⟨xs.sum / (xs.length : ℚ), ?_, ?_, ?_⟩
  · unfold npMean
    rw [if_neg hne]
  · exact div_nonneg (List.sum_nonneg fun v hv => (h v hv).1) hlenpos.le
  · rw [div_le_one hlenpos]
    calc xs.sum ≤ xs.length • (1:ℚ) :=
          List.sum_le_card_nsmul xs 1 fun v hv => (h v hv).2
      _ = (xs.length : ℚ) := by simp

/-- If some frequency falls in the band and the spectrum is index-aligned
with the frequency axis, the band-masked selection is nonempty. -/
theorem maskedVals_ne_nil (freqs cxy : List ℚ) (fLow fHigh : ℚ)
    (hlen : cxy.length = freqs.length)
    (hmask : ∃ f ∈ freqs, fLow ≤ f ∧ f ≤ fHigh) :
    maskedVals freqs cxy fLow fHigh ≠ [] := by
  obtain ⟨f, hf, hb⟩ := hmask
  obtain ⟨k, hk, hfk⟩ := List.mem_iff_getElem.1 hf
  have hk2 : k < cxy.length := by omega
  have hkz : k < (freqs.zip cxy).length := by
    rw [List.length_zip]
    omega
  have hmem : (freqs[k], cxy[k]) ∈ freqs.zip cxy := by
    have := @List.getElem_zip _ _ freqs cxy k hkz
    rw [← this]
    exact List.getElem_mem hkz
  have hpair : (freqs[k], cxy[k]) ∈
      (freqs.zip cxy).filter (fun p => decide (fLow ≤ p.1) && decide (p.1 ≤ fHigh)) := by
    refine List.mem_filter.2 ⟨hmem, ?_⟩
    simp only [hfk]
    simp [hb.1, hb.2]
  exact List.ne_nil_of_mem (List.mem_map_of_mem Prod.snd hpair)

/-- Band-masked selected values come from the spectrum list. -/
theorem maskedVals_subset (freqs cxy : List ℚ) (fLow fHigh : ℚ) :
    ∀ v ∈ maskedVals freqs cxy fLow fHigh, v ∈ cxy := by
  intro v hv
  unfold maskedVals at hv
  obtain ⟨⟨a, b⟩, hmem, rfl⟩ := List.mem_map.1 hv
  exact (List.of_mem_zip (List.mem_filter.1 hmem).1).2

/-- C5 (amended): for every channel count n ≥ 2 — with one channel the
computation raises instead (see the counterexample) — and every band
containing at least one frequency bin, given that the per-pair coherence
spectra are index-aligned with the frequency axis and take values in [0,1]
(the guarantee of magnitude-squared coherence), the assembled matrix is
n×n, entrywise symmetric, has every diagonal entry exactly 1, and every
off-diagonal entry a finite value in [0, 1]. -/
theorem coherence_matrix_props (n : ℕ) (freqs : List ℚ)
    (cohSpec : ℕ → ℕ → List ℚ) (fLow fHigh : ℚ)
    (hn : 2 ≤ n)
    (hlen : ∀ i j, (cohSpec i j).length = freqs.length)
    (hvals : ∀ i j, ∀ v ∈ cohSpec i j, 0 ≤ v ∧ v ≤ 1)
    (hmask : ∃ f ∈ freqs, fLow ≤ f ∧ f ≤ fHigh) :
    ∃ M, coherenceMatrix n freqs cohSpec fLow fHigh = some M ∧
      M.length = n ∧
      (∀ row ∈ M, row.length = n) ∧
      (∀ i j, i < n → j < n →
        (M.getD i []).getD j .nan = coherenceEntry freqs cohSpec fLow fHigh i j) ∧
      (∀ i j, coherenceEntry freqs cohSpec fLow fHigh i j =
        coherenceEntry freqs cohSpec fLow fHigh j i) ∧
      (∀ i, coherenceEntry freqs cohSpec fLow fHigh i i = .val 1) ∧
      (∀ i j, i ≠ j →
        ∃ q, coherenceEntry freqs cohSpec fLow fHigh i j = .val q ∧ 0 ≤ q ∧ q ≤ 1) := by
  refine ⟨(List.range n).map (fun i =>
      (List.range n).map (fun j => coherenceEntry freqs cohSpec fLow fHigh i j)),
    ?_, by simp, ?_, ?_, ?_, ?_, ?_⟩
  · unfold coherenceMatrix
    rw [if_neg (by omega)]
  · intro row hrow
    obtain ⟨i, -, rfl⟩ := List.mem_map.1 hrow
    simp
  · intro i j hi hj
    have h1 : ((List.range n).map (fun i => (List.range n).map (fun j =>
        coherenceEntry freqs cohSpec fLow fHigh i j))).getD i [] =
        (List.range n).map (fun j => coherenceEntry freqs cohSpec fLow fHigh i j) := by
      rw [List.getD_eq_getElem _ _ (by simpa using hi), List.getElem_map,
        List.getElem_range]
    rw [h1, List.getD_eq_getElem _ _ (by simpa using hj), List.getElem_map,
      List.getElem_range]
  · intro i j
    unfold coherenceEntry
    by_cases hij : i = j
    · subst hij
      rfl
    · rw [if_neg hij, if_neg (Ne.symm hij), min_comm, max_comm]
  · intro i
    unfold coherenceEntry
    rw [if_pos rfl]
  · intro i j hij
    unfold coherenceEntry
    rw [if_neg hij]
    exact npMean_mem_unit _
      (maskedVals_ne_nil freqs _ fLow fHigh (hlen _ _) hmask)
      (fun v hv => hvals _ _ v (maskedVals_subset freqs _ fLow fHigh v hv))

/-- C5 witness: two channels, frequency axis `[0, 1, 2]`, constant pair
spectra `1/2`, band 1–2 Hz. -/
theorem coherence_matrix_props_witness :
    ∃ M, coherenceMatrix 2 [0, 1, 2] (fun _ _ => [1/2, 1/2, 1/2]) 1 2 = some M ∧
      M.length = 2 ∧ ∀ row ∈ M, row.length = 2 := by
  obtain ⟨M, h1, h2, h3, -⟩ := coherence_matrix_props 2 [0, 1, 2]
    (fun _ _ => [1/2, 1/2, 1/2]) 1 2 (by norm_num) (fun i j => rfl)
    (fun i j v hv => by
      simp only [List.mem_cons, List.not_mem_nil, or_false] at hv
      rcases hv with h | h | h
      all_goals rw [h]; norm_num)
    ⟨1, by norm_num, by norm_num, by norm_num⟩
  exact ⟨M, h1, h2, h3⟩

/-- Every incremental coherence notification percentage lies in [45, 85]. -/
theorem coherenceProgress_bounds (tp : ℕ) :
    ∀ p ∈ coherenceProgress tp, 45 ≤ p.1 ∧ p.1 ≤ 85 := by
  intro p hp
  unfold coherenceProgress at hp
  obtain ⟨d, hd, rfl⟩ := List.mem_map.1 hp
  dsimp only
  have hdle : d ≤ tp := by
    have hd' := (List.mem_filter.1 hd).1
    obtain ⟨k, hk, rfl⟩ := List.mem_map.1 hd'
    rw [List.mem_range] at hk
    omega
  have hdiv : 40 * d / tp ≤ 40 := by
    rcases Nat.eq_zero_or_pos tp with h0 | h0
    · subst h0
      simp
    · calc 40 * d / tp ≤ 40 * tp / tp :=
            Nat.div_le_div_right (Nat.mul_le_mul_left _ hdle)
        _ = tp * 40 / tp := by rw [Nat.mul_comm]
        _ = 40 := Nat.mul_div_cancel_left 40 h0
  refine ⟨Nat.le_add_right _ _, ?_⟩
  omega

/-- The incremental coherence notifications are monotonically
non-decreasing in percentage. -/
theorem coherenceProgress_chain (tp : ℕ) :
    List.Chain' (fun p q : ℕ × String => p.1 ≤ q.1) (coherenceProgress tp) := by
  unfold coherenceProgress
  apply List.Pairwise.chain'
  have hbase : List.Pairwise (fun a b : ℕ => a ≤ b)
      (((List.range tp).map (· + 1)).filter (fun d => decide (d % 20 = 0))) := by
    apply List.Pairwise.filter
    exact (List.pairwise_le_range tp).map _ (fun a b hab => by omega)
  exact hbase.map _ (fun a b hab => by
    dsimp only
    exact Nat.add_le_add_left (Nat.div_le_div_right (Nat.mul_le_mul_left _ hab)) 45)

/-- C9: over one full analysis run, the emitted progress sequence (stage
notifications plus the incremental coherence-pair notifications) is
monotonically non-decreasing, every percentage lies in [0, 100] (the lower
bound holds as the percentages are naturals), and 100 appears only as the
final notification, emitted after all stages. -/
theorem progress_trace_spec (total_pairs : ℕ) :
    List.Chain' (fun p q : ℕ × String => p.1 ≤ q.1)
      (run_full_analysis_trace total_pairs) ∧
    (∀ p ∈ run_full_analysis_trace total_pairs, p.1 ≤ 100) ∧
    (run_full_analysis_trace total_pairs).getLast? =
      some (100, "Analysis complete") ∧
    (∀ p ∈ (run_full_analysis_trace total_pairs).dropLast, p.1 < 100) := by
  have hb := coherenceProgress_bounds total_pairs
  have hsplit : run_full_analysis_trace total_pairs =
      (([(2, "Detecting high-impedance channels..."),
         (4, "Applying adaptive filtering..."),
         (6, "Rejecting artifacts..."),
         (10, "Computing power spectral density..."),
         (20, "Computing band powers..."),
         (35, "Computing Z-scores..."),
         (45, "Computing coherence...")]
        ++ (coherenceProgress total_pairs
            ++ [(85, "Computing asymmetry..."), (92, "Finding peak frequencies...")]))
       ++ [(100, "Analysis complete")]) := by
    unfold run_full_analysis_trace
    simp [List.append_assoc]
  have hCB : ∀ y ∈ coherenceProgress total_pairs ++
      [((85:ℕ), "Computing asymmetry..."), (92, "Finding peak frequencies...")],
      45 ≤ y.1 ∧ y.1 ≤ 92 := by
    intro y hy
    rcases List.mem_append.1 hy with h | h
    · exact ⟨(hb y h).1, le_trans (hb y h).2 (by norm_num)⟩
    · simp only [List.mem_cons, List.not_mem_nil, or_false] at h
      rcases h with h | h
      · rw [h]
        exact ⟨by norm_num, by norm_num⟩
      · rw [h]
        exact ⟨by norm_num, by norm_num⟩
  have hPre : ∀ p ∈ ([(2, "Detecting high-impedance channels..."),
        (4, "Applying adaptive filtering..."),
        (6, "Rejecting artifacts..."),
        (10, "Computing power spectral density..."),
        (20, "Computing band powers..."),
        (35, "Computing Z-scores..."),
        (45, "Computing coherence...")]
       ++ (coherenceProgress total_pairs
           ++ [((85:ℕ), "Computing asymmetry..."), (92, "Finding peak frequencies...")])), p.1 ≤ 92 := by
    intro p hp
    rcases List.mem_append.1 hp with h | h
    · simp only [List.mem_cons, List.not_mem_nil, or_false] at h
      rcases h with h|h|h|h|h|h|h
      all_goals rw [h]; norm_num
    · exact (hCB p h).2
  refine ⟨?_, ?_, ?_, ?_⟩
  · rw [hsplit]
    rw [List.chain'_append]
    refine ⟨?_, List.chain'_singleton _, ?_⟩
    · rw [List.chain'_append]
      refine ⟨?_, ?_, ?_⟩
      · refine List.chain'_cons.2 ⟨by norm_num, ?_⟩
        refine List.chain'_cons.2 ⟨by norm_num, ?_⟩
        refine List.chain'_cons.2 ⟨by norm_num, ?_⟩
        refine List.chain'_cons.2 ⟨by norm_num, ?_⟩
        refine List.chain'_cons.2 ⟨by norm_num, ?_⟩
        refine List.chain'_cons.2 ⟨by norm_num, ?_⟩
        exact List.chain'_singleton _
      · rw [List.chain'_append]
        refine ⟨coherenceProgress_chain total_pairs, ?_, ?_⟩
        · exact List.chain'_cons.2 ⟨by norm_num, List.chain'_singleton _⟩
        · intro x hx y hy
          have hx' := List.mem_of_mem_getLast? hx
          have h85 : ∀ z ∈ [((85:ℕ), "Computing asymmetry..."),
              (92, "Finding peak frequencies...")], 85 ≤ z.1 := by
            intro z hz
            simp only [List.mem_cons, List.not_mem_nil, or_false] at hz
            rcases hz with h | h
            · rw [h]
            · rw [h]; norm_num
          exact le_trans (hb x hx').2 (h85 y (List.mem_of_mem_head? hy))
      · intro x hx y hy
        have hA : ([(2, "Detecting high-impedance channels..."),
            (4, "Applying adaptive filtering..."),
            (6, "Rejecting artifacts..."),
            (10, "Computing power spectral density..."),
            (20, "Computing band powers..."),
            (35, "Computing Z-scores..."),
            (45, "Computing coherence...")] : List (ℕ × String)).getLast? =
            some (45, "Computing coherence...") := rfl
        rw [hA, Option.mem_def] at hx
        injection hx with hx
        subst hx
        exact (hCB y (List.mem_of_mem_head? hy)).1
    · intro x hx y hy
      have hx' := List.mem_of_mem_getLast? hx
      have hy' := List.mem_of_mem_head? hy
      simp only [List.mem_cons, List.not_mem_nil, or_false] at hy'
      rw [hy']
      exact le_trans (hPre x hx') (by norm_num)
  · intro p hp
    rw [hsplit] at hp
    rcases List.mem_append.1 hp with h | h
    · exact le_trans (hPre p h) (by norm_num)
    · simp only [List.mem_cons, List.not_mem_nil, or_false] at h
      rw [h]
  · rw [hsplit, List.getLast?_concat]
  · intro p hp
    rw [hsplit, List.dropLast_concat] at hp
    exact lt_of_le_of_lt (hPre p hp) (by norm_num)

/-- Length of a uniform grid. -/
theorem uniformList_length (a d : ℚ) (N : ℕ) : (uniformList a d N).length = N := by
  simp [uniformList]

/-- Entry of a uniform grid. -/
theorem uniformList_getD (a d : ℚ) (N k : ℕ) (hk : k < N) :
    (uniformList a d N).getD k 0 = a + d * (k : ℚ) := by
  unfold uniformList
  rw [List.getD_eq_getElem _ _ (by simpa using hk), List.getElem_map,
    List.getElem_range]

/-- `getD` with default 0 of a list of nonnegative values is nonnegative. -/
theorem getD_nonneg (l : List ℚ) (h : ∀ v ∈ l, 0 ≤ v) (k : ℕ) :
    0 ≤ l.getD k 0 := by
  rcases lt_or_ge k l.length with hk | hk
  · rw [List.getD_eq_getElem _ _ hk]
    exact h _ (List.getElem_mem hk)
  · rw [List.getD_eq_default _ _ hk]

/-- Filtering `range N` by a convex (interval-like) predicate yields a
contiguous run `range' s len`. -/
theorem filter_range_eq_range' (Q : ℕ → Bool)
    (hconv : ∀ i j k, i ≤ j → j ≤ k → Q i = true → Q k = true → Q j = true)
    (N : ℕ) :
    ∃ s len, (List.range N).filter Q = List.range' s len ∧
      ∀ k, k ∈ List.range' s len ↔ k < N ∧ Q k = true := by
  induction N with
  | zero => exact ⟨0, 0, by simp, by simp⟩
  | succ N ih =>
    obtain ⟨s, len, heq, hiff⟩ := ih
    have hmemiff : ∀ k, k ∈ List.range' s len ↔ s ≤ k ∧ k < s + len := by
      intro k
      rw [List.mem_range']
      constructor
      · rintro ⟨i, hi, rfl⟩
        omega
      · rintro ⟨h1, h2⟩
        exact ⟨k - s, by omega, by omega⟩
    rw [List.range_succ, List.filter_append]
    by_cases hQ : Q N = true
    · have hfN : List.filter Q [N] = [N] := by simp [hQ]
      rcases Nat.eq_zero_or_pos len with hlen | hlen
      · subst hlen
        refine ⟨N, 1, ?_, ?_⟩
        · rw [heq, hfN]
          simp
        · intro k
          rw [List.range'_one, List.mem_singleton]
          constructor
          · rintro rfl
            exact ⟨Nat.lt_succ_self _, hQ⟩
          · rintro ⟨hk, hQk⟩
            by_contra hne
            have hkN : k < N := by omega
            have := (hiff k).2 ⟨hkN, hQk⟩
            simp at this
      · have hlast : s + len - 1 ∈ List.range' s len := (hmemiff _).2 (by omega)
        have hl := (hiff (s + len - 1)).1 hlast
        have hsl : s + len = N := by
          by_contra hne
          have hlt : s + len - 1 < N := hl.1
          have hslN : s + len < N := by omega
          have hQj := hconv (s + len - 1) (s + len) N (by omega) (by omega) hl.2 hQ
          have := (hmemiff (s + len)).1 ((hiff (s + len)).2 ⟨by omega, hQj⟩)
          omega
        refine ⟨s, len + 1, ?_, ?_⟩
        · rw [heq, hfN, ← hsl]
          rw [List.range'_concat s len, Nat.one_mul]
        · intro k
          have hmem' : k ∈ List.range' s (len + 1) ↔ s ≤ k ∧ k < s + (len + 1) := by
            rw [List.mem_range']
            constructor
            · rintro ⟨i, hi, rfl⟩
              omega
            · rintro ⟨h1, h2⟩
              exact ⟨k - s, by omega, by omega⟩
          rw [hmem']
          constructor
          · rintro ⟨h1, h2⟩
            by_cases hkN : k = N
            · subst hkN
              exact ⟨Nat.lt_succ_self _, hQ⟩
            · have hk' := (hiff k).1 ((hmemiff k).2 ⟨h1, by omega⟩)
              exact ⟨by omega, hk'.2⟩
          · rintro ⟨hk, hQk⟩
            by_cases hkN : k = N
            · subst hkN
              omega
            · have := (hmemiff k).1 ((hiff k).2 ⟨by omega, hQk⟩)
              omega
    · have hfN : List.filter Q [N] = [] := by
        simp only [List.filter_cons, List.filter_nil]
        rw [if_neg (by simpa using hQ)]
      refine ⟨s, len, ?_, ?_⟩
      · rw [heq, hfN, List.append_nil]
      · intro k
        rw [hiff k]
        constructor
        · rintro ⟨hk, hQk⟩
          exact ⟨by omega, hQk⟩
        · rintro ⟨hk, hQk⟩
          refine ⟨?_, hQk⟩
          by_cases hkN : k = N
          · subst hkN
            exact absurd hQk hQ
          · omega

/-- The in-band bins of a uniform ascending frequency axis form a uniform
grid with the same spacing (the inclusive interval mask selects a
contiguous run of bins). -/
theorem maskedFreqs_uniform (a d : ℚ) (N : ℕ) (fLow fHigh : ℚ) (hd : 0 < d) :
    ∃ a' N', maskedFreqs (uniformList a d N) fLow fHigh = uniformList a' d N' := by
  have hconv : ∀ i j k : ℕ, i ≤ j → j ≤ k →
      (decide (fLow ≤ a + d * (i:ℚ)) && decide ((a + d * (i:ℚ)) ≤ fHigh)) = true →
      (decide (fLow ≤ a + d * (k:ℚ)) && decide ((a + d * (k:ℚ)) ≤ fHigh)) = true →
      (decide (fLow ≤ a + d * (j:ℚ)) && decide ((a + d * (j:ℚ)) ≤ fHigh)) = true := by
    intro i j k hij hjk hQi hQk
    simp only [Bool.and_eq_true, decide_eq_true_eq] at hQi hQk ⊢
    have hmono : ∀ p q : ℕ, p ≤ q → a + d * (p:ℚ) ≤ a + d * (q:ℚ) := by
      intro p q hpq
      have hpq' : (p:ℚ) ≤ (q:ℚ) := by exact_mod_cast hpq
      nlinarith
    exact ⟨le_trans hQi.1 (hmono i j hij), le_trans (hmono j k hjk) hQk.2⟩
  obtain ⟨s, len, heq, -⟩ := filter_range_eq_range'
    (fun (k : ℕ) => decide (fLow ≤ a + d * (k:ℚ)) && decide ((a + d * (k:ℚ)) ≤ fHigh))
    hconv N
  refine ⟨a + d * (s:ℚ), len, ?_⟩
  unfold maskedFreqs uniformList
  rw [List.filter_map]
  have hQ : ((fun f => decide (fLow ≤ f) && decide (f ≤ fHigh)) ∘
      (fun (k : ℕ) => a + d * (k:ℚ))) =
      (fun (k : ℕ) => decide (fLow ≤ a + d * (k:ℚ)) && decide ((a + d * (k:ℚ)) ≤ fHigh)) := rfl
  rw [hQ, heq, List.range'_eq_map_range, List.map_map]
  apply List.map_congr_left
  intro k hk
  simp only [Function.comp_apply]
  push_cast
  ring

/-- The masked PSD row and the masked frequency axis have the same length
when the row is index-aligned with the axis. -/
theorem maskedVals_length (freqs row : List ℚ) (fLow fHigh : ℚ)
    (h : row.length = freqs.length) :
    (maskedVals freqs row fLow fHigh).length =
      (maskedFreqs freqs fLow fHigh).length := by
  induction freqs generalizing row with
  | nil =>
    cases row with
    | nil => rfl
    | cons r rs => simp at h
  | cons f fs ih =>
    cases row with
    | nil => simp at h
    | cons r rs =>
      have h' : rs.length = fs.length := by simpa using h
      unfold maskedVals maskedFreqs at *
      rw [List.zip_cons_cons, List.filter_cons, List.filter_cons]
      by_cases hP : (decide (fLow ≤ f) && decide (f ≤ fHigh)) = true
      · rw [if_pos (by simpa using hP), if_pos hP]
        simpa using ih rs h'
      · rw [if_neg (by simpa using hP), if_neg (by simpa using hP)]
        exact ih rs h'

/-- On a uniform grid with spacing `d > 0`, one parabolic Simpson segment
reduces to the textbook weights `d/3 · (y_i + 4·y_{i+1} + y_{i+2})`. -/
theorem basicSimpsonTerm_uniform (y : List ℚ) (a d : ℚ) (N i : ℕ)
    (hd : 0 < d) (hi : i + 2 < N) :
    basicSimpsonTerm y (uniformList a d N) i =
      d / 3 * (y.getD i 0 + 4 * y.getD (i + 1) 0 + y.getD (i + 2) 0) := by
  unfold basicSimpsonTerm
  rw [uniformList_getD a d N i (by omega),
    uniformList_getD a d N (i + 1) (by omega),
    uniformList_getD a d N (i + 2) (by omega)]
  have hd0 : d ≠ 0 := ne_of_gt hd
  have h0 : a + d * ((i:ℚ) + 1) - (a + d * (i:ℚ)) = d := by ring
  push_cast
  rw [show a + d * ((i:ℚ) + 1) - (a + d * (i:ℚ)) = d from by ring,
    show a + d * ((i:ℚ) + 2) - (a + d * ((i:ℚ) + 1)) = d from by ring]
  field_simp
  ring

/-- Composite-Simpson partial sums over a uniform grid are nonnegative for
nonnegative data (each segment has weights `d/3, 4d/3, d/3`). -/
theorem basicSimpson_nonneg (y : List ℚ) (a d : ℚ) (N stop : ℕ)
    (hd : 0 < d) (hy : ∀ k, 0 ≤ y.getD k 0) (hstop : stop + 2 ≤ N) :
    0 ≤ basicSimpson y (uniformList a d N) 0 stop := by
  unfold basicSimpson
  apply List.sum_nonneg
  intro t ht
  obtain ⟨i, hi, rfl⟩ := List.mem_map.1 ht
  rw [List.mem_range'] at hi
  obtain ⟨j, hj, rfl⟩ := hi
  rw [basicSimpsonTerm_uniform y a d N _ hd (by omega)]
  have h1 := hy (0 + 2 * j)
  have h2 := hy (0 + 2 * j + 1)
  have h3 := hy (0 + 2 * j + 2)
  have hd3 : 0 ≤ d / 3 := by positivity
  apply mul_nonneg hd3
  linarith

/-- SciPy's Simpson integral of nonnegative data over a uniform ascending
grid is nonnegative: every composite weight is positive, and the Cartwright
correction's negative weight `−d/12` on `y[N-3]` is dominated by that
point's `4d/3` weight in the last plain Simpson segment. -/
theorem simpsonQ_nonneg (y : List ℚ) (a d : ℚ)
    (hd : 0 < d) (hy : ∀ v ∈ y, 0 ≤ v) :
    0 ≤ simpsonQ y (uniformList a d y.length) := by
  have hyD : ∀ k, 0 ≤ y.getD k 0 := getD_nonneg y hy
  have hd0 : d ≠ 0 := ne_of_gt hd
  unfold simpsonQ
  dsimp only
  by_cases hpar : y.length % 2 = 0
  · rw [if_pos hpar]
    by_cases h0 : y.length = 0
    · rw [if_pos h0]
    · rw [if_neg h0]
      by_cases h2 : y.length = 2
      · rw [if_pos h2]
        rw [uniformList_getD a d y.length 1 (by omega),
          uniformList_getD a d y.length 0 (by omega)]
        have hy0 := hyD 0
        have hy1 := hyD 1
        push_cast
        nlinarith [mul_nonneg hd.le hy0, mul_nonneg hd.le hy1]
      · rw [if_neg h2]
        have hN4 : 4 ≤ y.length := by omega
        have e1 : (uniformList a d y.length).getD (y.length - 1) 0 =
            a + d * ((y.length : ℚ) - 1) := by
          rw [uniformList_getD a d y.length _ (by omega),
            Nat.cast_sub (by omega : 1 ≤ y.length)]
          norm_num
        have e2 : (uniformList a d y.length).getD (y.length - 2) 0 =
            a + d * ((y.length : ℚ) - 2) := by
          rw [uniformList_getD a d y.length _ (by omega),
            Nat.cast_sub (by omega : 2 ≤ y.length)]
          norm_num
        have e3 : (uniformList a d y.length).getD (y.length - 3) 0 =
            a + d * ((y.length : ℚ) - 3) := by
          rw [uniformList_getD a d y.length _ (by omega),
            Nat.cast_sub (by omega : 3 ≤ y.length)]
          norm_num
        rw [e1, e2, e3]
        rw [show a + d * ((y.length : ℚ) - 1) - (a + d * ((y.length : ℚ) - 2)) = d
          from by ring]
        rw [show a + d * ((y.length : ℚ) - 2) - (a + d * ((y.length : ℚ) - 3)) = d
          from by ring]
        rw [show (2 * d ^ 2 + 3 * d * d) / (6 * (d + d)) = 5 * d / 12 from by
          field_simp; ring]
        rw [show (d ^ 2 + 3 * d * d) / (6 * d) = 2 * d / 3 from by
          field_simp; ring]
        rw [show d ^ 3 / (6 * d * (d + d)) = d / 12 from by
          field_simp; ring]
        have hsplitb : basicSimpson y (uniformList a d y.length) 0 (y.length - 3) =
            ((List.range' 0 ((y.length - 2) / 2 - 1) 2).map
              (basicSimpsonTerm y (uniformList a d y.length))).sum +
            basicSimpsonTerm y (uniformList a d y.length) (y.length - 4) := by
          unfold basicSimpson
          rw [show (y.length - 3 - 0 + 1) / 2 = ((y.length - 2) / 2 - 1) + 1 from by
            omega]
          rw [List.range'_concat, List.map_append, List.sum_append]
          rw [show 0 + 2 * ((y.length - 2) / 2 - 1) = y.length - 4 from by omega]
          simp
        rw [hsplitb]
        rw [basicSimpsonTerm_uniform y a d y.length (y.length - 4) hd (by omega)]
        rw [show y.length - 4 + 1 = y.length - 3 from by omega,
          show y.length - 4 + 2 = y.length - 2 from by omega]
        have hfront : 0 ≤ ((List.range' 0 ((y.length - 2) / 2 - 1) 2).map
            (basicSimpsonTerm y (uniformList a d y.length))).sum := by
          apply List.sum_nonneg
          intro t ht
          obtain ⟨i, hi, rfl⟩ := List.mem_map.1 ht
          rw [List.mem_range'] at hi
          obtain ⟨j, hj, rfl⟩ := hi
          rw [basicSimpsonTerm_uniform y a d y.length _ hd (by omega)]
          have h1 := hyD (0 + 2 * j)
          have h2 := hyD (0 + 2 * j + 1)
          have h3 := hyD (0 + 2 * j + 2)
          apply mul_nonneg (by positivity)
          linarith
        have hu := hyD (y.length - 4)
        have hv := hyD (y.length - 3)
        have hw := hyD (y.length - 2)
        have hz := hyD (y.length - 1)
        nlinarith [mul_nonneg hd.le hu, mul_nonneg hd.le hv,
          mul_nonneg hd.le hw, mul_nonneg hd.le hz]
  · rw [if_neg hpar]
    by_cases h1 : y.length = 1
    · rw [show y.length - 2 = 0 from by omega]
      unfold basicSimpson
      simp
    · exact basicSimpson_nonneg y a d y.length (y.length - 2) hd hyD (by omega)

/-- The band-power vector always has one entry per channel. -/
theorem compute_band_power_length (psd : Mat) (freqs : List ℚ) (fLow fHigh : ℚ) :
    (compute_band_power psd freqs fLow fHigh).length = psd.length := by
  unfold compute_band_power
  by_cases h : maskedFreqs freqs fLow fHigh = []
  · rw [if_pos h]
    simp
  · rw [if_neg h]
    simp

/-- Band-power entries are nonnegative for a nonnegative PSD over a uniform
ascending frequency axis. -/
theorem compute_band_power_nonneg (psd : Mat) (a d : ℚ) (N : ℕ) (fLow fHigh : ℚ)
    (hd : 0 < d)
    (hrows : ∀ row ∈ psd, row.length = (uniformList a d N).length)
    (hpsd : ∀ row ∈ psd, ∀ v ∈ row, 0 ≤ v) :
    ∀ v ∈ compute_band_power psd (uniformList a d N) fLow fHigh, 0 ≤ v := by
  intro v hv
  unfold compute_band_power at hv
  by_cases h : maskedFreqs (uniformList a d N) fLow fHigh = []
  · rw [if_pos h] at hv
    rw [List.eq_of_mem_replicate hv]
  · rw [if_neg h] at hv
    obtain ⟨row, hrow, rfl⟩ := List.mem_map.1 hv
    obtain ⟨a', N', huni⟩ := maskedFreqs_uniform a d N fLow fHigh hd
    rw [huni]
    have hlen : (maskedVals (uniformList a d N) row fLow fHigh).length = N' := by
      rw [maskedVals_length _ _ _ _ (by rw [hrows row hrow, uniformList_length]),
        huni, uniformList_length]
    rw [← hlen]
    exact simpsonQ_nonneg _ a' d hd (fun w hw =>
      hpsd row hrow w (maskedVals_subset _ _ _ _ w hw))

/-- C6: band power integrates the PSD by Simpson's rule against exactly the
frequency bins with `f_low ≤ f ≤ f_high` (both edges inclusive, the true
frequency-axis values); relative power equals band power divided by the
1–25 Hz total power exactly whenever that total is positive (the
`np.where` floor only replaces nonpositive totals by `1e-10`); and with a
nonnegative PSD over the uniform Welch axis every relative-power entry is a
finite nonnegative rational. -/
theorem band_power_relative_power_spec
    (psd : Mat) (a d : ℚ) (N : ℕ) (fLow fHigh : ℚ) (hd : 0 < d)
    (hrows : ∀ row ∈ psd, row.length = (uniformList a d N).length)
    (hpsd : ∀ row ∈ psd, ∀ v ∈ row, 0 ≤ v) :
    (maskedFreqs (uniformList a d N) fLow fHigh ≠ [] →
      compute_band_power psd (uniformList a d N) fLow fHigh =
        psd.map (fun row =>
          simpsonQ (maskedVals (uniformList a d N) row fLow fHigh)
            (maskedFreqs (uniformList a d N) fLow fHigh))) ∧
    (maskedFreqs (uniformList a d N) fLow fHigh =
      (uniformList a d N).filter
        (fun f => decide (fLow ≤ f) && decide (f ≤ fHigh))) ∧
    (∀ k, k < psd.length →
      0 < (compute_band_power psd (uniformList a d N) TOTAL_POWER_RANGE.1
            TOTAL_POWER_RANGE.2).getD k 0 →
      (compute_relative_power psd (uniformList a d N) fLow fHigh).getD k 0 =
        (compute_band_power psd (uniformList a d N) fLow fHigh).getD k 0 /
        (compute_band_power psd (uniformList a d N) TOTAL_POWER_RANGE.1
          TOTAL_POWER_RANGE.2).getD k 0) ∧
    (∀ v ∈ compute_relative_power psd (uniformList a d N) fLow fHigh, 0 ≤ v) := by
  have hblen := compute_band_power_length psd (uniformList a d N) fLow fHigh
  have htlen := compute_band_power_length psd (uniformList a d N)
    TOTAL_POWER_RANGE.1 TOTAL_POWER_RANGE.2
  refine ⟨?_, rfl, ?_, ?_⟩
  · intro h
    unfold compute_band_power
    rw [if_neg h]
  · intro k hk hpos
    unfold compute_relative_power
    have hzlen : k < ((compute_band_power psd (uniformList a d N) fLow fHigh).zip
        (compute_band_power psd (uniformList a d N) TOTAL_POWER_RANGE.1
          TOTAL_POWER_RANGE.2)).length := by
      rw [List.length_zip, hblen, htlen]
      omega
    rw [List.getD_eq_getElem _ _ (by rw [List.length_map]; exact hzlen),
      List.getElem_map, @List.getElem_zip _ _ _ _ _ hzlen]
    rw [List.getD_eq_getElem _ _ (by rw [htlen]; exact hk)] at hpos
    rw [List.getD_eq_getElem _ _ (by rw [hblen]; exact hk),
      List.getD_eq_getElem _ _ (by rw [htlen]; exact hk)]
    dsimp only
    rw [if_pos hpos]
  · intro v hv
    unfold compute_relative_power at hv
    obtain ⟨⟨b1, t1⟩, hmem, rfl⟩ := List.mem_map.1 hv
    have hb1 : 0 ≤ b1 :=
      compute_band_power_nonneg psd a d N fLow fHigh hd hrows hpsd b1
        (List.of_mem_zip hmem).1
    dsimp only
    by_cases hpos : 0 < t1
    · rw [if_pos hpos]
      exact div_nonneg hb1 hpos.le
    · rw [if_neg hpos]
      apply div_nonneg hb1
      norm_num

/-- C6 witness: the PSD `[[1, 2, 3]]` on the uniform axis `0, 1, 2`
(spacing 1) with band 1–2 Hz has nonnegative relative power in its single
channel. -/
theorem band_power_relative_power_witness :
    0 ≤ (compute_relative_power [[1, 2, 3]] (uniformList 0 1 3) 1 2).getD 0 0 := by
  apply getD_nonneg
  exact (band_power_relative_power_spec [[1, 2, 3]] 0 1 3 1 2 (by norm_num)
    (by
      intro row hrow
      simp only [List.mem_cons, List.not_mem_nil, or_false] at hrow
      rw [hrow, uniformList_length]
      rfl)
    (by
      intro row hrow v hv
      simp only [List.mem_cons, List.not_mem_nil, or_false] at hrow
      rw [hrow] at hv
      simp only [List.mem_cons, List.not_mem_nil, or_false] at hv
      rcases hv with h | h | h
      all_goals rw [h]; norm_num)).2.2.2

end EEGViewer
